import Mathlib

/-!
# Verification of the Syncify recommendation logic

This file gives a shallow embedding, in Lean 4, of the original logic of
`syncify.py`: the functions `get_spotify_tracks`,
`get_youtube_music_recommendations` and `filter_and_get_top_recommendations`,
together with theorems about them.

Python strings are modelled as `List Char`; `str.lower()` as a character-wise
`Char.toLower`; Python's `str.split(sep)` (greedy, leftmost, non-overlapping)
is implemented for the fixed separator `" by "`; Python's `dict` (with its
insertion-order guarantee) as an association list; Python's stable
`sorted(..., reverse=True)` as a stable insertion sort; and Python exceptions
(`ValueError` from tuple unpacking, `KeyError`/`IndexError` from dictionary
and list subscripts) via `Except String`.
-/

/-- Strings are modelled as lists of characters. -/
abbrev Str := List Char

/-- Embedding of Python's `str.lower()` (character-wise). -/
def lower (s : Str) : Str := s.map Char.toLower

/-- The fixed separator `" by "` used to build and split recommendation keys. -/
def sepBy : Str := [' ', 'b', 'y', ' ']

/-- A Spotify playlist track as produced by `get_spotify_tracks`:
`{'name': ..., 'artist': ..., 'id': ...}`. -/
structure Track where
  name : Str
  artist : Str
  id : Str
deriving DecidableEq

/-- A candidate recommendation record as produced by
`get_youtube_music_recommendations`: `{'title', 'artist', 'album',
'thumbnail', 'views', 'spotify_url'}`.  The thumbnail URL may be Python
`None`, hence `Option Str`. -/
structure Recommendation where
  title : Str
  artist : Str
  album : Str
  thumbnail : Option Str
  views : Str
  spotify_url : Str
deriving DecidableEq

/-- The normalized key `f"{rec['title'].lower()} by {rec['artist'].lower()}"`
of a candidate (line 100 of `syncify.py`). -/
def recKey (r : Recommendation) : Str := lower r.title ++ sepBy ++ lower r.artist

/-- The normalized key `f"{track['name'].lower()} by {track['artist'].lower()}"`
of a playlist track (line 96 of `syncify.py`). -/
def trackKey (t : Track) : Str := lower t.name ++ sepBy ++ lower t.artist

/-- The `playlist_songs` seen-key set, as the list of playlist-track keys
(only membership is ever used, so a list is a faithful model of the set). -/
def plKeys (tracks : List Track) : List Str := tracks.map trackKey

/-! ## Splitting on `" by "`

`splitFuel` is a fuel-indexed structural implementation of Python's
`key.split(" by ")`: greedy leftmost non-overlapping matches of the
separator.  `splitOnL s` runs it with fuel `s.length`, which is always
sufficient. -/

/-- Prepend a character to the first part of a split result. -/
def consHead (c : Char) : List (List Char) → List (List Char)
  | [] => [[c]]
  | p :: ps => (c :: p) :: ps

/-- Fuel-indexed splitter on the fixed separator `" by "`. -/
def splitFuel : Nat → List Char → List (List Char)
  | _, [] => [[]]
  | 0, s => [s]
  | fuel + 1, c :: rest =>
    if sepBy.isPrefixOf (c :: rest) then
      [] :: splitFuel fuel ((c :: rest).drop 4)
    else
      consHead c (splitFuel fuel rest)

/-- Embedding of Python's `s.split(" by ")`. -/
def splitOnL (s : List Char) : List (List Char) := splitFuel s.length s

/-- Joining with `" by "`: the inverse direction of `splitOnL`. -/
def intercalateSep : List (List Char) → List Char
  | [] => []
  | [p] => p
  | p :: q :: ps => p ++ sepBy ++ intercalateSep (q :: ps)

/-- Does `s` contain `" by "` as a contiguous substring? -/
def hasSepB : Str → Bool
  | [] => false
  | c :: rest => sepBy.isPrefixOf (c :: rest) || hasSepB rest

/-! ## Counting (lines 95–102 of `syncify.py`)

`recommendation_count` is a `defaultdict(int)`; a Python dict preserves the
insertion order of first key insertion, so it is modelled by an association
list where a fresh key is appended at the end. -/

/-- `recommendation_count[rec_key] += 1` on the association-list model. -/
def bump : List (Str × Nat) → Str → List (Str × Nat)
  | [], k => [(k, 1)]
  | (k', n) :: rest, k =>
    if k' = k then (k', n + 1) :: rest else (k', n) :: bump rest k

/-- One iteration of the counting loop: skip the candidate when its key is in
`playlist_songs`, otherwise bump its counter. -/
def countStep (pl : List Str) (m : List (Str × Nat)) (r : Recommendation) :
    List (Str × Nat) :=
  if recKey r ∈ pl then m else bump m (recKey r)

/-- The full counting loop (lines 99–102 of `syncify.py`). -/
def countRecs (tracks : List Track) (recs : List Recommendation) :
    List (Str × Nat) :=
  recs.foldl (countStep (plKeys tracks)) []

/-- Lookup in the counter, with the `defaultdict` default `0`. -/
def lookupCount : List (Str × Nat) → Str → Nat
  | [], _ => 0
  | (k', n) :: rest, k => if k' = k then n else lookupCount rest k

/-! ## Stable descending sort (line 105 of `syncify.py`)

`sorted(recommendation_count.items(), key=lambda x: x[1], reverse=True)` is a
stable sort, descending on the count.  Stable sorts with respect to a total
preorder are unique, so the insertion sort below (which keeps an
earlier-inserted element before any equal-count later one) computes exactly
the same list. -/

/-- Insert an element (earlier in the original order) into an
already-sorted-descending list, before any element of equal count. -/
def insertDesc (x : Str × Nat) : List (Str × Nat) → List (Str × Nat)
  | [] => [x]
  | y :: ys => if y.2 ≤ x.2 then x :: y :: ys else y :: insertDesc x ys

/-- Stable insertion sort, descending on the count component. -/
def sortDesc : List (Str × Nat) → List (Str × Nat)
  | [] => []
  | x :: xs => insertDesc x (sortDesc xs)

/-- `top_recommendations`: the sorted counter entries, truncated to 10
(line 105 of `syncify.py`). -/
def topPairs (tracks : List Track) (recs : List Recommendation) :
    List (Str × Nat) :=
  (sortDesc (countRecs tracks recs)).take 10

/-! ## Recovery of full records (lines 108–115 of `syncify.py`) -/

/-- The `next(...)` linear search of line 111: the first candidate whose
lowercased title and artist equal the two halves of the split key. -/
def findByParts (recs : List Recommendation) (t a : Str) :
    Option Recommendation :=
  recs.find? (fun r' => lower r'.title == t && lower r'.artist == a)

/-- One iteration of the final loop: a found record (`if rec_info:`) is
prepended to the result of the remaining iterations, a `None` search result
is skipped, and an exception from the remaining iterations propagates. -/
def withTail (found : Option Recommendation)
    (tail : Except String (List Recommendation)) :
    Except String (List Recommendation) :=
  match found, tail with
  | some r, .ok out => .ok (r :: out)
  | some _, .error e => .error e
  | none, tail => tail

/-- The final loop of lines 108–113.  `rec_key.split(" by ")` is unpacked
into exactly two variables, so any other number of parts raises a
`ValueError`; a key whose search comes back `None` is skipped. -/
def buildFinal (recs : List Recommendation) :
    List (Str × Nat) → Except String (List Recommendation)
  | [] => .ok []
  | (k, _) :: rest =>
    match splitOnL k with
    | [t, a] => withTail (findByParts recs t a) (buildFinal recs rest)
    | _ => .error "ValueError"

/-- Embedding of `filter_and_get_top_recommendations` (lines 93–115 of
`syncify.py`). -/
def filter_and_get_top_recommendations (tracks : List Track)
    (recs : List Recommendation) : Except String (List Recommendation) :=
  buildFinal recs (topPairs tracks recs)

/-! ## Derived key-counting notions used in the claims -/

/-- The keys of the candidates that are not excluded by the playlist's
seen-key set. -/
def nonExcludedKeys (tracks : List Track) (recs : List Recommendation) :
    List Str :=
  (recs.map recKey).filter (fun k => decide (k ∉ plKeys tracks))

/-- Occurrence count of a key among the non-excluded candidates. -/
def occCount (tracks : List Track) (recs : List Recommendation) (k : Str) :
    Nat :=
  (nonExcludedKeys tracks recs).count k

/-- `k1` has an occurrence in `l` strictly before every occurrence of `k2`. -/
def occursBefore (l : List Str) (k1 k2 : Str) : Prop :=
  k1 ∈ l.takeWhile (fun x => !(x == k2))

instance (l : List Str) (k1 k2 : Str) : Decidable (occursBefore l k1 k2) := by
  unfold occursBefore; infer_instance

-- sanity checks of the embedding on concrete inputs (Python-traced)
example : splitOnL (['a'] ++ sepBy ++ ['b']) = [['a'], ['b']] := by decide
example :
    splitOnL ['a', ' ', 'b', 'y', ' ', 'b', 'y', ' ', 'b'] =
      [['a'], ['b', 'y', ' ', 'b']] := by decide
example :
    splitOnL ['x', ' ', 'b', 'y', ' ', 'b', 'y', ' ', 'b', 'y', ' ', 'z'] =
      [['x'], ['b', 'y'], ['z']] := by decide
example : splitOnL [] = [[]] := by decide

/-! ## Lemmas about the splitter -/

/-- The splitter is independent of the fuel, as long as the fuel is at least
the length of the input. -/
theorem splitFuel_mono : ∀ (f₁ f₂ : Nat) (s : List Char),
    s.length ≤ f₁ → s.length ≤ f₂ → splitFuel f₁ s = splitFuel f₂ s := by
  intro f₁
  induction f₁ with
  | zero =>
    intro f₂ s h₁ h₂
    cases s with
    | nil => cases f₂ <;> rfl
    | cons c rest => simp at h₁
  | succ g ih =>
    intro f₂ s h₁ h₂
    cases s with
    | nil => cases f₂ <;> rfl
    | cons c rest =>
      cases f₂ with
      | zero => simp at h₂
      | succ h =>
        simp only [List.length_cons] at h₁ h₂
        simp only [splitFuel]
        by_cases hp : sepBy.isPrefixOf (c :: rest) = true
        · rw [if_pos hp, if_pos hp]
          have hlen : ((c :: rest).drop 4).length ≤ g := by
            simp only [List.length_drop, List.length_cons]
            omega
          have hlen' : ((c :: rest).drop 4).length ≤ h := by
            simp only [List.length_drop, List.length_cons]
            omega
          rw [ih h ((c :: rest).drop 4) hlen hlen']
        · rw [if_neg hp, if_neg hp]
          rw [ih h rest (by omega) (by omega)]

/-- One-step unfolding of `splitOnL` on a nonempty string. -/
theorem splitOnL_cons (c : Char) (rest : List Char) :
    splitOnL (c :: rest) =
      if sepBy.isPrefixOf (c :: rest) then
        [] :: splitOnL ((c :: rest).drop 4)
      else
        consHead c (splitOnL rest) := by
  show splitFuel (rest.length + 1) (c :: rest) = _
  simp only [splitFuel]
  by_cases hp : sepBy.isPrefixOf (c :: rest) = true
  · rw [if_pos hp, if_pos hp]
    rw [splitFuel_mono rest.length ((c :: rest).drop 4).length ((c :: rest).drop 4)]
    · rfl
    · simp only [List.length_drop, List.length_cons]; omega
    · rfl
  · rw [if_neg hp, if_neg hp]
    rfl

@[simp]
theorem splitOnL_nil : splitOnL [] = [[]] := rfl

/-- The splitter never returns the empty list of parts. -/
theorem splitOnL_ne_nil (s : List Char) : splitOnL s ≠ [] := by
  cases s with
  | nil => simp
  | cons c rest =>
    rw [splitOnL_cons]
    by_cases hp : sepBy.isPrefixOf (c :: rest) = true
    · simp [hp]
    · simp only [hp, if_false]
      cases h : splitOnL rest <;> simp [consHead]

/-- `l.isPrefixOf (l ++ t)` always holds. -/
theorem isPrefixOf_append (l t : List Char) : l.isPrefixOf (l ++ t) = true := by
  induction l with
  | nil => simp [List.isPrefixOf]
  | cons c cs ih => simp [List.isPrefixOf, ih]

/-- A successful Boolean test gives the decomposition. -/
theorem isPrefixOf_exists {l s : List Char} (h : l.isPrefixOf s = true) :
    ∃ t, s = l ++ t := by
  induction l generalizing s with
  | nil => exact ⟨s, rfl⟩
  | cons c cs ih =>
    cases s with
    | nil => simp [List.isPrefixOf] at h
    | cons d ds =>
      simp only [List.isPrefixOf, Bool.and_eq_true, beq_iff_eq] at h
      obtain ⟨rfl, h2⟩ := h
      obtain ⟨t, rfl⟩ := ih h2
      exact ⟨t, rfl⟩

/-- A string not containing `" by "` splits into a single part: itself. -/
theorem splitOnL_of_not_hasSepB {s : List Char} (h : hasSepB s = false) :
    splitOnL s = [s] := by
  induction s with
  | nil => rfl
  | cons c rest ih =>
    simp only [hasSepB, Bool.or_eq_false_iff] at h
    rw [splitOnL_cons, if_neg (by simp [h.1]), ih h.2]
    rfl

/-- If `" by "` is not a prefix of `c :: (a' ++ " ")`, it is also not a prefix
of `c :: (a' ++ " by " ++ b)`: the separator is 4 characters long and its
match is decided within the first 4 characters, whose relevant part agrees
between the two lists. -/
theorem isPrefixOf_sep_extend (c : Char) (a' b : List Char)
    (h : sepBy.isPrefixOf (c :: (a' ++ [' '])) = false) :
    sepBy.isPrefixOf (c :: (a' ++ sepBy ++ b)) = false := by
  match a' with
  | [] => simp [sepBy, List.isPrefixOf]
  | [d] => simp [sepBy, List.isPrefixOf]
  | [d, e] =>
    simp only [sepBy, List.isPrefixOf, List.cons_append, List.nil_append,
      Bool.and_eq_false_iff] at h ⊢
    simpa using h
  | d :: e :: f :: a'' =>
    simp only [sepBy, List.isPrefixOf, List.cons_append, List.nil_append,
      Bool.and_eq_false_iff] at h ⊢
    simpa using h

/-- Splitting a constructed key: when `a ++ " "` does not contain `" by "`
(so in particular `a` neither contains `" by "` nor ends in `" by`), the
greedy splitter finds the explicit separator first. -/
theorem splitOnL_append_sep (a b : List Char)
    (h : hasSepB (a ++ [' ']) = false) :
    splitOnL (a ++ sepBy ++ b) = a :: splitOnL b := by
  induction a with
  | nil =>
    show splitOnL (' ' :: ('b' :: 'y' :: ' ' :: b)) = [] :: splitOnL b
    rw [splitOnL_cons,
      if_pos (show sepBy.isPrefixOf (' ' :: 'b' :: 'y' :: ' ' :: b) = true from
        isPrefixOf_append sepBy b)]
    rfl
  | cons c a' ih =>
    simp only [List.cons_append, hasSepB, Bool.or_eq_false_iff] at h
    show splitOnL (c :: (a' ++ sepBy ++ b)) = (c :: a') :: splitOnL b
    have hfalse : sepBy.isPrefixOf (c :: (a' ++ sepBy ++ b)) = false :=
      isPrefixOf_sep_extend c a' b h.1
    rw [splitOnL_cons, if_neg (by rw [hfalse]; exact Bool.false_ne_true)]
    rw [ih h.2]
    rfl

/-- Rejoining the parts of a split with `" by "` recovers the original
string (fuel-indexed workhorse). -/
theorem intercalateSep_splitOnL_aux :
    ∀ (n : Nat) (s : List Char), s.length ≤ n →
      intercalateSep (splitOnL s) = s := by
  intro n
  induction n with
  | zero =>
    intro s hs
    have : s = [] := List.eq_nil_of_length_eq_zero (Nat.le_zero.mp hs)
    subst this; rfl
  | succ n ih =>
    intro s hs
    cases s with
    | nil => rfl
    | cons c rest =>
      rw [splitOnL_cons]
      by_cases hp : sepBy.isPrefixOf (c :: rest) = true
      · rw [if_pos hp]
        obtain ⟨t, ht⟩ := isPrefixOf_exists hp
        have hlen : t.length ≤ n := by
          have := congrArg List.length ht
          simp only [List.length_cons, List.length_append] at this hs
          simp only [sepBy, List.length_cons, List.length_nil] at this
          omega
        have hdrop : (c :: rest).drop 4 = t := by
          rw [ht]; exact List.drop_left sepBy t
        rw [hdrop]
        have hit := ih t hlen
        cases hsp : splitOnL t with
        | nil => exact absurd hsp (splitOnL_ne_nil t)
        | cons p ps =>
          rw [hsp] at hit
          simp only [intercalateSep, List.nil_append, hit]
          exact ht.symm
      · rw [if_neg hp]
        have hlen : rest.length ≤ n := by
          simp only [List.length_cons] at hs; omega
        have hit := ih rest hlen
        cases hsp : splitOnL rest with
        | nil => exact absurd hsp (splitOnL_ne_nil rest)
        | cons p ps =>
          rw [hsp] at hit
          cases ps with
          | nil =>
            simp only [intercalateSep] at hit
            simp [consHead, intercalateSep, hit]
          | cons q qs =>
            simp only [consHead, intercalateSep, List.cons_append] at hit ⊢
            rw [← hit]

/-- Rejoining the parts of a split with `" by "` recovers the original
string. -/
theorem intercalateSep_splitOnL (s : List Char) :
    intercalateSep (splitOnL s) = s :=
  intercalateSep_splitOnL_aux s.length s le_rfl

/-- A key that splits into exactly two parts is the `" by "`-join of those
parts. -/
theorem eq_of_splitOnL_pair {k t a : Str} (h : splitOnL k = [t, a]) :
    t ++ sepBy ++ a = k := by
  have := intercalateSep_splitOnL k
  rw [h] at this
  simpa [intercalateSep] using this

/-! ## Lemmas about the counter -/

theorem bump_map_fst_of_mem {m : List (Str × Nat)} {k : Str}
    (h : k ∈ m.map Prod.fst) :
    (bump m k).map Prod.fst = m.map Prod.fst := by
  induction m with
  | nil => simp at h
  | cons p rest ih =>
    obtain ⟨k', n⟩ := p
    by_cases hk : k' = k
    · simp [bump, hk]
    · simp only [List.map_cons, List.mem_cons] at h
      rcases h with h | h
    
      · exact absurd h.symm hk
      · simp [bump, hk, ih h]

theorem bump_map_fst_of_not_mem {m : List (Str × Nat)} {k : Str}
    (h : k ∉ m.map Prod.fst) :
    (bump m k).map Prod.fst = m.map Prod.fst ++ [k] := by
  induction m with
  | nil => simp [bump]
  | cons p rest ih =>
    obtain ⟨k', n⟩ := p
    simp only [List.map_cons, List.mem_cons] at h
    push_neg at h
    simp [bump, Ne.symm h.1, ih h.2]

theorem lookupCount_bump_self (m : List (Str × Nat)) (k : Str) :
    lookupCount (bump m k) k = lookupCount m k + 1 := by
  induction m with
  | nil => simp [bump, lookupCount]
  | cons p rest ih =>
    obtain ⟨k', n⟩ := p
    by_cases hk : k' = k
    · simp [bump, hk, lookupCount]
    · simp [bump, hk, lookupCount, ih]

theorem lookupCount_bump_ne (m : List (Str × Nat)) {k' k : Str} (h : k' ≠ k) :
    lookupCount (bump m k') k = lookupCount m k := by
  induction m with
  | nil => simp [bump, lookupCount, h]
  | cons p rest ih =>
    obtain ⟨k'', n⟩ := p
    by_cases hk : k'' = k'
    · simp [bump, hk, lookupCount, h]
    · simp only [bump, hk, if_false]
      by_cases hk2 : k'' = k <;> simp [lookupCount, hk2, ih]

/-- The counting loop adds, to whatever is already in the accumulator, the
number of occurrences of `k` among the candidate keys — except that a key in
the playlist's seen-key set is never counted. -/
theorem lookupCount_foldl (pl : List Str) :
    ∀ (recs : List Recommendation) (m : List (Str × Nat)) (k : Str),
      lookupCount (recs.foldl (countStep pl) m) k =
        lookupCount m k +
          (if k ∈ pl then 0 else (recs.map recKey).count k) := by
  intro recs
  induction recs with
  | nil => intro m k; simp
  | cons r rest ih =>
    intro m k
    rw [List.foldl_cons, ih]
    by_cases hkpl : k ∈ pl
    · simp only [hkpl, if_true]
      by_cases hr : recKey r ∈ pl
      · simp [countStep, hr]
      · have hne : recKey r ≠ k := fun he => hr (he ▸ hkpl)
        simp [countStep, hr, lookupCount_bump_ne m hne]
    · simp only [hkpl, if_false, List.map_cons, List.count_cons]
      by_cases hr : recKey r ∈ pl
      · have hne : recKey r ≠ k := fun he => hkpl (he ▸ hr)
        simp [countStep, hr, hne]
      · by_cases heq : recKey r = k
        · subst heq
          simp [countStep, hr, lookupCount_bump_self]
          omega
        · simp [countStep, hr, heq, lookupCount_bump_ne m heq]

/-- Membership in the keys of the fold accumulator. -/
theorem mem_map_fst_foldl (pl : List Str) :
    ∀ (recs : List Recommendation) (m : List (Str × Nat)) (k : Str),
      k ∈ (recs.foldl (countStep pl) m).map Prod.fst ↔
        k ∈ m.map Prod.fst ∨ (k ∈ recs.map recKey ∧ k ∉ pl) := by
  intro recs
  induction recs with
  | nil => intro m k; simp
  | cons r rest ih =>
    intro m k
    rw [List.foldl_cons, ih]
    have hstep : k ∈ (countStep pl m r).map Prod.fst ↔
        k ∈ m.map Prod.fst ∨ (k = recKey r ∧ recKey r ∉ pl) := by
      by_cases hr : recKey r ∈ pl
      · simp [countStep, hr]
      · simp only [countStep, hr, if_false]
        by_cases hm : recKey r ∈ m.map Prod.fst
        · rw [bump_map_fst_of_mem hm]
          constructor
          · exact fun h => Or.inl h
          · rintro (h | ⟨rfl, -⟩) <;> [exact h; exact hm]
        · rw [bump_map_fst_of_not_mem hm]
          simp [hr, List.mem_append]
    rw [hstep]
    simp only [List.map_cons, List.mem_cons]
    constructor
    · rintro ((h | ⟨rfl, h2⟩) | ⟨h1, h2⟩)
      · exact Or.inl h
      · exact Or.inr ⟨Or.inl rfl, h2⟩
      · exact Or.inr ⟨Or.inr h1, h2⟩
    · rintro (h | ⟨rfl | h1, h2⟩)
      · exact Or.inl (Or.inl h)
      · exact Or.inl (Or.inr ⟨rfl, h2⟩)
      · exact Or.inr ⟨h1, h2⟩

/-- The keys of the fold accumulator stay duplicate-free. -/
theorem nodup_map_fst_foldl (pl : List Str) :
    ∀ (recs : List Recommendation) (m : List (Str × Nat)),
      (m.map Prod.fst).Nodup → ((recs.foldl (countStep pl) m).map Prod.fst).Nodup := by
  intro recs
  induction recs with
  | nil => intro m h; simpa using h
  | cons r rest ih =>
    intro m h
    rw [List.foldl_cons]
    apply ih
    by_cases hr : recKey r ∈ pl
    · simpa [countStep, hr] using h
    · simp only [countStep, hr, if_false]
      by_cases hm : recKey r ∈ m.map Prod.fst
      · rw [bump_map_fst_of_mem hm]; exact h
      · rw [bump_map_fst_of_not_mem hm]
        simp [List.nodup_append, h, hm]

/-- If every candidate key is already a playlist key, the counting loop never
records anything. -/
theorem foldl_countStep_all_excluded (pl : List Str) :
    ∀ (recs : List Recommendation) (m : List (Str × Nat)),
      (∀ r ∈ recs, recKey r ∈ pl) → recs.foldl (countStep pl) m = m := by
  intro recs
  induction recs with
  | nil => intro m _; rfl
  | cons r rest ih =>
    intro m h
    rw [List.foldl_cons]
    have hr : recKey r ∈ pl := h r (List.mem_cons_self r rest)
    rw [show countStep pl m r = m from by simp [countStep, hr]]
    exact ih m (fun r' hr' => h r' (List.mem_cons_of_mem r hr'))

/-- In a counter with duplicate-free keys, lookup recovers the stored value. -/
theorem lookupCount_of_mem_nodup :
    ∀ {m : List (Str × Nat)} {k : Str} {n : Nat},
      (m.map Prod.fst).Nodup → (k, n) ∈ m → lookupCount m k = n := by
  intro m
  induction m with
  | nil => intro k n _ h; simp at h
  | cons p rest ih =>
    intro k n hnd hmem
    obtain ⟨k', n'⟩ := p
    simp only [List.map_cons, List.nodup_cons] at hnd
    rcases List.mem_cons.mp hmem with h | h
    · obtain ⟨rfl, rfl⟩ := Prod.mk.injEq .. ▸ h
      simp [lookupCount]
    · have hk : k' ≠ k := by
        rintro rfl
        exact hnd.1 (List.mem_map.mpr ⟨(k', n), h, rfl⟩)
      simp [lookupCount, hk, ih hnd.2 h]

/-- Counting within the filtered (non-excluded) key list versus the full key
list. -/
theorem count_filter_not_mem (pl : List Str) :
    ∀ (l : List Str) (k : Str),
      (l.filter (fun x => decide (x ∉ pl))).count k =
        if k ∈ pl then 0 else l.count k := by
  intro l
  induction l with
  | nil => intro k; simp
  | cons c l ih =>
    intro k
    by_cases hc : c ∈ pl
    · rw [List.filter_cons_of_neg (by simp [hc])]
      rw [ih]
      by_cases hk : k ∈ pl
      · simp [hk]
      · have : c ≠ k := fun he => hk (he ▸ hc)
        simp [hk, List.count_cons, this]
    · rw [List.filter_cons_of_pos (by simp [hc])]
      rw [List.count_cons, ih]
      by_cases hk : k ∈ pl
      · have : c ≠ k := fun he => hc (he ▸ hk)
        simp [hk, this]
      · simp [hk, List.count_cons]

/-! ## Lemmas about the stable descending sort -/

theorem insertDesc_perm (x : Str × Nat) (l : List (Str × Nat)) :
    List.Perm (insertDesc x l) (x :: l) := by
  induction l with
  | nil => exact List.Perm.refl _
  | cons y ys ih =>
    by_cases h : y.2 ≤ x.2
    · simp [insertDesc, h]
    · simp only [insertDesc, h, if_false]
      exact (ih.cons y).trans (List.Perm.swap x y ys)

theorem sortDesc_perm (l : List (Str × Nat)) : List.Perm (sortDesc l) l := by
  induction l with
  | nil => exact List.Perm.refl _
  | cons x xs ih => exact (insertDesc_perm x (sortDesc xs)).trans (ih.cons x)

theorem mem_insertDesc {a x : Str × Nat} {l : List (Str × Nat)} :
    a ∈ insertDesc x l ↔ a = x ∨ a ∈ l :=
  ((insertDesc_perm x l).mem_iff).trans (List.mem_cons)

/-- Inserting into a descending list keeps it descending. -/
theorem insertDesc_pairwise {x : Str × Nat} {l : List (Str × Nat)}
    (h : l.Pairwise (fun a b => b.2 ≤ a.2)) :
    (insertDesc x l).Pairwise (fun a b => b.2 ≤ a.2) := by
  induction l with
  | nil => simp [insertDesc]
  | cons y ys ih =>
    rw [List.pairwise_cons] at h
    by_cases hy : y.2 ≤ x.2
    · simp only [insertDesc, hy, if_true]
      refine List.Pairwise.cons ?_ (List.Pairwise.cons h.1 h.2)
      intro b hb
      rcases List.mem_cons.mp hb with rfl | hb
      · exact hy
      · exact le_trans (h.1 b hb) hy
    · simp only [insertDesc, hy, if_false]
      refine List.Pairwise.cons ?_ (ih h.2)
      intro b hb
      rcases mem_insertDesc.mp hb with rfl | hb
      · exact le_of_not_le hy
      · exact h.1 b hb

/-- The sort output is descending on counts. -/
theorem sortDesc_pairwise (l : List (Str × Nat)) :
    (sortDesc l).Pairwise (fun a b => b.2 ≤ a.2) := by
  induction l with
  | nil => simp [sortDesc]
  | cons x xs ih => exact insertDesc_pairwise ih

/-- Stability of the insertion step: restricted to any fixed count `c`, the
insertion does not change the relative order. -/
theorem insertDesc_filter_count (x : Str × Nat) (l : List (Str × Nat)) (c : Nat) :
    (insertDesc x l).filter (fun kc => decide (kc.2 = c)) =
      (x :: l).filter (fun kc => decide (kc.2 = c)) := by
  induction l with
  | nil => rfl
  | cons y ys ih =>
    by_cases hy : y.2 ≤ x.2
    · simp [insertDesc, hy]
    · simp only [insertDesc, hy, if_false]
      by_cases hx : x.2 = c
      · have hyc : ¬(y.2 = c) := by omega
        rw [List.filter_cons_of_neg (by simp [hyc])]
        rw [ih]
        rw [List.filter_cons_of_pos (by simp [hx])]
        rw [List.filter_cons_of_pos (by simp [hx])]
        rw [List.filter_cons_of_neg (by simp [hyc])]
      · by_cases hyc : y.2 = c
        · rw [List.filter_cons_of_pos (by simp [hyc]), ih]
          rw [List.filter_cons_of_neg (by simp [hx])]
          rw [List.filter_cons_of_neg (by simp [hx])]
          rw [List.filter_cons_of_pos (by simp [hyc])]
        · rw [List.filter_cons_of_neg (by simp [hyc]), ih]
          rw [List.filter_cons_of_neg (by simp [hx])]
          rw [List.filter_cons_of_neg (by simp [hx])]
          rw [List.filter_cons_of_neg (by simp [hyc])]

/-- Stability of the sort: restricted to any fixed count `c`, the sorted list
coincides with the input list (this is the standard characterisation of a
stable sort, and Python's `sorted` is documented to be stable). -/
theorem sortDesc_filter_count (l : List (Str × Nat)) (c : Nat) :
    (sortDesc l).filter (fun kc => decide (kc.2 = c)) =
      l.filter (fun kc => decide (kc.2 = c)) := by
  induction l with
  | nil => rfl
  | cons x xs ih =>
    show (insertDesc x (sortDesc xs)).filter _ = _
    rw [insertDesc_filter_count]
    by_cases hx : x.2 = c
    · rw [List.filter_cons_of_pos (by simp [hx]), ih,
        List.filter_cons_of_pos (by simp [hx])]
    · rw [List.filter_cons_of_neg (by simp [hx]), ih,
        List.filter_cons_of_neg (by simp [hx])]

/-- Two elements of the sorted list with equal counts retain any
order-compatible relation that held pairwise in the input list. -/
theorem sortDesc_pairwise_of_stable {l : List (Str × Nat)}
    {R : Str → Str → Prop} (h : l.Pairwise (fun a b => R a.1 b.1)) :
    (sortDesc l).Pairwise (fun a b => a.2 = b.2 → R a.1 b.1) := by
  rw [List.pairwise_iff_getElem]
  intro i j hi hj hij hcnt
  have hfil : ∀ c : Nat,
      ((sortDesc l).filter (fun kc => decide (kc.2 = c))).Pairwise
        (fun a b => R a.1 b.1) := by
    intro c
    rw [sortDesc_filter_count]
    exact List.Pairwise.sublist (List.filter_sublist l) h
  have hc := hfil ((sortDesc l)[i].2)
  rw [List.pairwise_filter] at hc
  have := List.pairwise_iff_getElem.mp hc i j hi hj hij
  exact this rfl hcnt.symm

/-! ## First-occurrence order of the counter keys -/

/-- The keys that the counting loop will append (in order) when run over the
given candidates, starting from a counter whose keys are `seen`. -/
def newKeys (pl : List Str) (seen : List Str) : List Recommendation → List Str
  | [] => []
  | r :: rest =>
    if recKey r ∈ pl ∨ recKey r ∈ seen then newKeys pl seen rest
    else recKey r :: newKeys pl (recKey r :: seen) rest

theorem newKeys_congr (pl : List Str) :
    ∀ (l : List Recommendation) (s₁ s₂ : List Str),
      (∀ x, x ∈ s₁ ↔ x ∈ s₂) → newKeys pl s₁ l = newKeys pl s₂ l := by
  intro l
  induction l with
  | nil => intro s₁ s₂ _; rfl
  | cons r rest ih =>
    intro s₁ s₂ hs
    by_cases h : recKey r ∈ pl ∨ recKey r ∈ s₁
    · have h' : recKey r ∈ pl ∨ recKey r ∈ s₂ := by
        rcases h with h | h
        · exact Or.inl h
        · exact Or.inr ((hs _).mp h)
      simp only [newKeys, if_pos h, if_pos h']
      exact ih s₁ s₂ hs
    · have h' : ¬(recKey r ∈ pl ∨ recKey r ∈ s₂) := by
        intro hc
        rcases hc with hc | hc
        · exact h (Or.inl hc)
        · exact h (Or.inr ((hs _).mpr hc))
      simp only [newKeys, if_neg h, if_neg h']
      rw [ih (recKey r :: s₁) (recKey r :: s₂)
        (fun x => by simp [hs x])]

theorem newKeys_mem (pl : List Str) :
    ∀ (l : List Recommendation) (seen : List Str) (k : Str),
      k ∈ newKeys pl seen l → k ∉ pl ∧ k ∉ seen := by
  intro l
  induction l with
  | nil => intro seen k h; simp [newKeys] at h
  | cons r rest ih =>
    intro seen k h
    by_cases hr : recKey r ∈ pl ∨ recKey r ∈ seen
    · rw [newKeys, if_pos hr] at h
      exact ih seen k h
    · rw [newKeys, if_neg hr] at h
      rcases List.mem_cons.mp h with rfl | h
      · push_neg at hr
        exact hr
      · have := ih (recKey r :: seen) k h
        exact ⟨this.1, fun hk => this.2 (List.mem_cons_of_mem _ hk)⟩

theorem occursBefore_head {k1 k2 : Str} (l : List Str) (h : k1 ≠ k2) :
    occursBefore (k1 :: l) k1 k2 := by
  unfold occursBefore
  rw [List.takeWhile_cons]
  simp [h]

theorem occursBefore_cons {l : List Str} {k1 k2 : Str} (c : Str)
    (h : occursBefore l k1 k2) (hne : c ≠ k2) :
    occursBefore (c :: l) k1 k2 := by
  unfold occursBefore at h ⊢
  rw [List.takeWhile_cons, if_pos (by simp [hne])]
  exact List.mem_cons_of_mem _ h

/-- The appended keys are pairwise ordered by first occurrence in the
candidate (key) list. -/
theorem newKeys_pairwise (pl : List Str) :
    ∀ (l : List Recommendation) (seen : List Str),
      (newKeys pl seen l).Pairwise
        (fun k1 k2 => occursBefore (l.map recKey) k1 k2) := by
  intro l
  induction l with
  | nil => intro seen; simp [newKeys]
  | cons r rest ih =>
    intro seen
    by_cases hr : recKey r ∈ pl ∨ recKey r ∈ seen
    · rw [newKeys, if_pos hr]
      refine List.Pairwise.imp_of_mem ?_ (ih seen)
      intro a b _ hb hab
      have hbne : b ≠ recKey r := by
        have := newKeys_mem pl rest seen b hb
        rintro rfl
        rcases hr with hr | hr
        · exact this.1 hr
        · exact this.2 hr
      simp only [List.map_cons]
      exact occursBefore_cons (recKey r) hab (Ne.symm hbne)
    · rw [newKeys, if_neg hr]
      refine List.Pairwise.cons ?_ ?_
      · intro b hb
        have hbne : b ≠ recKey r := by
          have := newKeys_mem pl rest (recKey r :: seen) b hb
          rintro rfl
          exact this.2 (List.mem_cons_self _ _)
        simp only [List.map_cons]
        exact occursBefore_head _ (fun he => hbne he.symm)
      · refine List.Pairwise.imp_of_mem ?_ (ih (recKey r :: seen))
        intro a b _ hb hab
        have hbne : b ≠ recKey r := by
          have := newKeys_mem pl rest (recKey r :: seen) b hb
          rintro rfl
          exact this.2 (List.mem_cons_self _ _)
        simp only [List.map_cons]
        exact occursBefore_cons (recKey r) hab (Ne.symm hbne)

/-- The keys of the fold accumulator are the old keys followed by the newly
encountered (non-excluded, unseen) candidate keys in order of first
occurrence. -/
theorem map_fst_foldl_eq_newKeys (pl : List Str) :
    ∀ (recs : List Recommendation) (m : List (Str × Nat)),
      (recs.foldl (countStep pl) m).map Prod.fst =
        m.map Prod.fst ++ newKeys pl (m.map Prod.fst) recs := by
  intro recs
  induction recs with
  | nil => intro m; simp [newKeys]
  | cons r rest ih =>
    intro m
    rw [List.foldl_cons, ih]
    by_cases hpl : recKey r ∈ pl
    · rw [show countStep pl m r = m from by simp [countStep, hpl]]
      rw [newKeys, if_pos (Or.inl hpl)]
    · by_cases hm : recKey r ∈ m.map Prod.fst
      · rw [show (countStep pl m r).map Prod.fst = m.map Prod.fst from by
          simp only [countStep, hpl, if_false]; exact bump_map_fst_of_mem hm]
        rw [newKeys, if_pos (Or.inr hm)]
      · rw [show (countStep pl m r).map Prod.fst = m.map Prod.fst ++ [recKey r] from by
          simp only [countStep, hpl, if_false]; exact bump_map_fst_of_not_mem hm]
        rw [newKeys, if_neg (by tauto)]
        rw [newKeys_congr pl rest (m.map Prod.fst ++ [recKey r]) (recKey r :: m.map Prod.fst)
          (fun x => by simp [or_comm])]
        simp

/-- The counter keys, in order, are pairwise ordered by first occurrence in
the full candidate key list. -/
theorem countRecs_keys_pairwise (tracks : List Track) (recs : List Recommendation) :
    ((countRecs tracks recs).map Prod.fst).Pairwise
      (fun k1 k2 => occursBefore (recs.map recKey) k1 k2) := by
  unfold countRecs
  rw [map_fst_foldl_eq_newKeys]
  simpa using newKeys_pairwise (plKeys tracks) recs []

/-- Membership in the counter keys. -/
theorem mem_countRecs_fst (tracks : List Track) (recs : List Recommendation)
    (k : Str) :
    k ∈ (countRecs tracks recs).map Prod.fst ↔
      k ∈ recs.map recKey ∧ k ∉ plKeys tracks := by
  unfold countRecs
  rw [mem_map_fst_foldl]
  simp

/-- The counter keys are duplicate-free. -/
theorem countRecs_keys_nodup (tracks : List Track) (recs : List Recommendation) :
    ((countRecs tracks recs).map Prod.fst).Nodup :=
  nodup_map_fst_foldl (plKeys tracks) recs [] (by simp)

/-- Every stored counter value is the occurrence count of its key among the
non-excluded candidates. -/
theorem countRecs_entry (tracks : List Track) (recs : List Recommendation)
    {kc : Str × Nat} (h : kc ∈ countRecs tracks recs) :
    kc.2 = occCount tracks recs kc.1 := by
  obtain ⟨k, n⟩ := kc
  have hfst : k ∈ (countRecs tracks recs).map Prod.fst :=
    List.mem_map.mpr ⟨(k, n), h, rfl⟩
  have hnpl : k ∉ plKeys tracks := ((mem_countRecs_fst tracks recs k).mp hfst).2
  have hlk : lookupCount (countRecs tracks recs) k = n :=
    lookupCount_of_mem_nodup (countRecs_keys_nodup tracks recs) h
  have hval := lookupCount_foldl (plKeys tracks) recs [] k
  unfold countRecs at hlk
  rw [hval] at hlk
  simp only [lookupCount, Nat.zero_add, hnpl, if_false] at hlk
  unfold occCount nonExcludedKeys
  rw [count_filter_not_mem, if_neg hnpl]
  exact hlk.symm

/-- An entry of the truncated sorted list is an entry of the counter. -/
theorem mem_topPairs {tracks : List Track} {recs : List Recommendation}
    {kc : Str × Nat} (h : kc ∈ topPairs tracks recs) :
    kc ∈ countRecs tracks recs :=
  (sortDesc_perm (countRecs tracks recs)).mem_iff.mp
    (List.mem_of_mem_take h)

/-! ## Lemmas about the final recovery loop -/

/-- A record found by the component search for a well-split key has exactly
that key. -/
theorem recKey_of_findByParts {recs : List Recommendation} {k t a : Str}
    {r : Recommendation} (hsp : splitOnL k = [t, a])
    (hfind : findByParts recs t a = some r) : recKey r = k := by
  have hpred := List.find?_some hfind
  simp only [Bool.and_eq_true, beq_iff_eq] at hpred
  unfold recKey
  rw [hpred.1, hpred.2]
  exact eq_of_splitOnL_pair hsp

/-- Unfolding `buildFinal` on a key that splits into exactly two parts. -/
theorem buildFinal_cons_pair (recs : List Recommendation) {k t a : Str}
    (n : Nat) (rest : List (Str × Nat)) (hsp : splitOnL k = [t, a]) :
    buildFinal recs ((k, n) :: rest) =
      withTail (findByParts recs t a) (buildFinal recs rest) := by
  rw [buildFinal, hsp]

/-- Unfolding `buildFinal` on a key that does not split into exactly two
parts: the tuple unpacking of line 110 raises a `ValueError`. -/
theorem buildFinal_cons_bad (recs : List Recommendation) {k : Str}
    (n : Nat) (rest : List (Str × Nat))
    (hsp : (splitOnL k).length ≠ 2) :
    buildFinal recs ((k, n) :: rest) = .error "ValueError" := by
  rcases hk : splitOnL k with _ | ⟨t, _ | ⟨a, _ | ⟨c, cs⟩⟩⟩
  · rw [buildFinal, hk]
  · rw [buildFinal, hk]
  · rw [hk] at hsp; simp at hsp
  · rw [buildFinal, hk]

/-- On success, the keys of the returned records form a subsequence of the
processed key list. -/
theorem buildFinal_keys_sublist (recs : List Recommendation) :
    ∀ {keys : List (Str × Nat)} {out : List Recommendation},
      buildFinal recs keys = .ok out →
      (out.map recKey).Sublist (keys.map Prod.fst) := by
  intro keys
  induction keys with
  | nil =>
    intro out h
    simp only [buildFinal, Except.ok.injEq] at h
    subst h
    simp
  | cons kn rest ih =>
    obtain ⟨k, n⟩ := kn
    intro out h
    rw [buildFinal] at h
    split at h
    · rename_i t a hsp
      unfold withTail at h
      split at h
      · rename_i r out' hfind hrest
        simp only [Except.ok.injEq] at h
        subst h
        simp only [List.map_cons]
        rw [recKey_of_findByParts hsp hfind]
        exact List.Sublist.cons₂ k (ih hrest)
      · simp at h
      · rename_i hfind
        exact List.Sublist.cons k (ih h)
    · simp at h

/-- If some processed key does not split into exactly two parts, the loop
raises: it never returns a list. -/
theorem buildFinal_not_ok_of_bad_key (recs : List Recommendation) :
    ∀ {keys : List (Str × Nat)} {out : List Recommendation},
      (∃ kc ∈ keys, (splitOnL kc.1).length ≠ 2) →
      buildFinal recs keys = .ok out → False := by
  intro keys
  induction keys with
  | nil =>
    rintro out ⟨kc, hkc, -⟩ _
    simp at hkc
  | cons kn rest ih =>
    obtain ⟨k, n⟩ := kn
    rintro out ⟨kc, hkc, hbad⟩ hok
    rw [buildFinal] at hok
    split at hok
    · rename_i t a hsp
      have hrest : ∃ kc ∈ rest, (splitOnL kc.1).length ≠ 2 := by
        rcases List.mem_cons.mp hkc with rfl | hmem
        · rw [hsp] at hbad; simp at hbad
        · exact ⟨kc, hmem, hbad⟩
      unfold withTail at hok
      split at hok
      · rename_i r out' hfind hrest'
        exact ih hrest hrest'
      · simp at hok
      · exact ih hrest hok
    · simp at hok

/-- The `∃`-form: a retained key with a bad split forces an exception. -/
theorem buildFinal_error_of_bad_key (recs : List Recommendation)
    {keys : List (Str × Nat)}
    (h : ∃ kc ∈ keys, (splitOnL kc.1).length ≠ 2) :
    ∃ e, buildFinal recs keys = .error e := by
  cases hb : buildFinal recs keys with
  | ok out => exact absurd hb (fun hb => buildFinal_not_ok_of_bad_key recs h hb)
  | error e => exact ⟨e, rfl⟩

/-- `List.find?` only depends on the predicate's values on the list. -/
theorem find?_congr_mem {α : Type} {p q : α → Bool} :
    ∀ {l : List α}, (∀ a ∈ l, p a = q a) → l.find? p = l.find? q := by
  intro l
  induction l with
  | nil => intro _; rfl
  | cons x xs ih =>
    intro h
    have hx := h x (List.mem_cons_self x xs)
    cases hq : q x with
    | true =>
      rw [List.find?_cons_of_pos _ (hx.trans hq), List.find?_cons_of_pos _ hq]
    | false =>
      rw [List.find?_cons_of_neg _ (by rw [hx, hq]; exact Bool.false_ne_true),
        List.find?_cons_of_neg _ (by rw [hq]; exact Bool.false_ne_true)]
      exact ih (fun a ha => h a (List.mem_cons_of_mem x ha))

/-- When no candidate's lowercased title (even extended by the following
space) or artist contains `" by "`, every key built from a candidate splits
back into exactly its two components, the linear search succeeds, and the
loop returns — one record per key, namely the first candidate whose full key
equals that key. -/
theorem buildFinal_ok_of_clean (recs : List Recommendation)
    (hclean : ∀ r ∈ recs, hasSepB (lower r.title ++ [' ']) = false ∧
      hasSepB (lower r.artist) = false) :
    ∀ {keys : List (Str × Nat)},
      (∀ kc ∈ keys, ∃ r ∈ recs, kc.1 = recKey r) →
      ∃ out, buildFinal recs keys = .ok out ∧
        List.Forall₂
          (fun r kc => recs.find? (fun r' => recKey r' == kc.1) = some r)
          out keys := by
  intro keys
  induction keys with
  | nil => intro _; exact ⟨[], rfl, List.Forall₂.nil⟩
  | cons kn rest ih =>
    obtain ⟨k, n⟩ := kn
    intro hkeys
    obtain ⟨r₀, hr₀, hk⟩ := hkeys (k, n) (List.mem_cons_self _ _)
    have hk : k = recKey r₀ := hk
    have hsplit : ∀ r' ∈ recs,
        splitOnL (recKey r') = [lower r'.title, lower r'.artist] := by
      intro r' hr'
      unfold recKey
      rw [splitOnL_append_sep _ _ (hclean r' hr').1,
        splitOnL_of_not_hasSepB (hclean r' hr').2]
    have hsp : splitOnL k = [lower r₀.title, lower r₀.artist] := by
      rw [hk]; exact hsplit r₀ hr₀
    have hpq : ∀ r' ∈ recs,
        (lower r'.title == lower r₀.title &&
          lower r'.artist == lower r₀.artist) = (recKey r' == k) := by
      intro r' hr'
      by_cases hcomp : lower r'.title = lower r₀.title ∧
          lower r'.artist = lower r₀.artist
      · have hkey : recKey r' = k := by
          rw [hk]
          unfold recKey
          rw [hcomp.1, hcomp.2]
        simp [hcomp.1, hcomp.2, hkey]
      · have hkey : recKey r' ≠ k := by
          intro he
          have h1 := hsplit r' hr'
          rw [he, hsp] at h1
          simp only [List.cons.injEq, and_true] at h1
          exact hcomp ⟨h1.1.symm, h1.2.symm⟩
        have h2 : (recKey r' == k) = false := beq_eq_false_iff_ne.mpr hkey
        rcases not_and_or.mp hcomp with hc | hc
        · rw [beq_eq_false_iff_ne.mpr hc, Bool.false_and, h2]
        · rw [beq_eq_false_iff_ne.mpr hc, Bool.and_false, h2]
    have hfind0 : (recs.find? (fun r' => recKey r' == k)).isSome := by
      rw [List.find?_isSome]
      exact ⟨r₀, hr₀, by simp [hk]⟩
    obtain ⟨r, hfind⟩ := Option.isSome_iff_exists.mp hfind0
    have hfbp : findByParts recs (lower r₀.title) (lower r₀.artist) = some r := by
      unfold findByParts
      rw [find?_congr_mem hpq]
      exact hfind
    obtain ⟨out', hout', hfa⟩ :=
      ih (fun kc hkc => hkeys kc (List.mem_cons_of_mem _ hkc))
    refine ⟨r :: out', ?_, List.Forall₂.cons hfind hfa⟩
    rw [buildFinal_cons_pair recs n rest hsp, hfbp, hout']
    rfl

/-! ## Embedding of `get_spotify_tracks` (lines 32–48 of `syncify.py`)

A playlist item is `Option SpTrackObj` (`item.get('track')` may be `None`);
inside a track object, `Option` marks a field that may be absent from the
dictionary.  `track['id']` is a direct subscript: an absent `'id'` raises a
`KeyError`. -/

def unknownSong : Str := "Unknown Song".toList

def unknownArtist : Str := "Unknown Artist".toList

/-- An entry of a track's `'artists'` list. -/
structure SpArtist where
  name : Option Str
deriving DecidableEq

/-- A (non-null) `'track'` object of a playlist item. -/
structure SpTrackObj where
  name : Option Str
  artists : Option (List SpArtist)
  id : Option Str
deriving DecidableEq

/-- `track['artists'][0].get('name', 'Unknown Artist') if track.get('artists')
else 'Unknown Artist'`: an absent or empty (falsy) artist list gives the
default; otherwise the first artist's name with the default for an absent
name. -/
def spArtistName : Option (List SpArtist) → Str
  | some (a :: _) => a.name.getD unknownArtist
  | _ => unknownArtist

/-- Embedding of `get_spotify_tracks`, taking the playlist's `'items'` list
(the surrounding API call is abstracted away). -/
def get_spotify_tracks : List (Option SpTrackObj) → Except String (List Track)
  | [] => .ok []
  | none :: rest => get_spotify_tracks rest
  | some t :: rest =>
    match t.id with
    | none => .error "KeyError"
    | some i =>
      match get_spotify_tracks rest with
      | .ok out =>
        .ok ({ name := t.name.getD unknownSong,
               artist := spArtistName t.artists,
               id := i } :: out)
      | .error e => .error e

/-! ## Embedding of `get_youtube_music_recommendations` (lines 51–89)

The external search call and `fuzz.ratio` are abstracted: the search results
and the ratio function are parameters.  `result['title']` is modelled as a
present field; `result.get('artists', [...])[0]['name']` raises an
`IndexError` on a present-but-empty list and a `KeyError` on a first artist
without a name, and similarly for thumbnails. -/

structure YtArtist where
  name : Option Str
deriving DecidableEq

structure YtThumb where
  url : Option Str
deriving DecidableEq

structure YtAlbum where
  name : Option Str
deriving DecidableEq

/-- One search result returned by `ytmusic.search(..., filter='songs')`. -/
structure SearchResult where
  title : Str
  artists : Option (List YtArtist)
  album : Option YtAlbum
  thumbnails : Option (List YtThumb)
  views : Option Str
deriving DecidableEq

/-- `result.get('artists', [{'name': 'Unknown Artist'}])[0]['name']`. -/
def ytArtistName : Option (List YtArtist) → Except String Str
  | none => .ok unknownArtist
  | some [] => .error "IndexError"
  | some (a :: _) =>
    match a.name with
    | none => .error "KeyError"
    | some nm => .ok nm

/-- `result.get('thumbnails', [{'url': None}])[0]['url']`. -/
def ytThumbUrl : Option (List YtThumb) → Except String (Option Str)
  | none => .ok none
  | some [] => .error "IndexError"
  | some (t :: _) => .ok t.url

/-- `result.get('album', {}).get('name', 'N/A')`. -/
def ytAlbumName : Option YtAlbum → Str
  | none => "N/A".toList
  | some alb => alb.name.getD ("N/A".toList)

/-- `f"https://open.spotify.com/track/{track_id}"`. -/
def spotifyUrlOf (trackId : Str) : Str :=
  "https://open.spotify.com/track/".toList ++ trackId

/-- The body of the `for result in search_results[:10]` loop. -/
def ytProcess (ratio : Str → Str → Nat) (songName artistName trackId : Str) :
    List SearchResult → Except String (List Recommendation)
  | [] => .ok []
  | res :: rest =>
    match ytArtistName res.artists with
    | .error e => .error e
    | .ok artist =>
      if ratio (lower res.title) (lower songName) > 90 ∧
          ratio (lower artist) (lower artistName) > 90 then
        ytProcess ratio songName artistName trackId rest
      else
        match ytThumbUrl res.thumbnails with
        | .error e => .error e
        | .ok thumb =>
          match ytProcess ratio songName artistName trackId rest with
          | .ok out =>
            .ok ({ title := res.title,
                   artist := artist,
                   album := ytAlbumName res.album,
                   thumbnail := thumb,
                   views := res.views.getD ("0".toList),
                   spotify_url := spotifyUrlOf trackId } :: out)
          | .error e => .error e

/-- Embedding of `get_youtube_music_recommendations`: only the first 10
search results are ever inspected (`search_results[:10]`). -/
def get_youtube_music_recommendations (ratio : Str → Str → Nat)
    (songName artistName trackId : Str) (searchResults : List SearchResult) :
    Except String (List Recommendation) :=
  ytProcess ratio songName artistName trackId (searchResults.take 10)

/-! ## Containment of `" by "` forces a bad split -/

theorem consHead_length_of_ne_nil {L : List (List Char)} (c : Char)
    (h : L ≠ []) : (consHead c L).length = L.length := by
  cases L with
  | nil => exact absurd rfl h
  | cons p ps => rfl

theorem isPrefixOf_extend {s u : List Char}
    (h : sepBy.isPrefixOf s = true) : sepBy.isPrefixOf (s ++ u) = true := by
  obtain ⟨v, rfl⟩ := isPrefixOf_exists h
  rw [List.append_assoc]
  exact isPrefixOf_append sepBy (v ++ u)

theorem hasSepB_length {s : Str} (h : hasSepB s = true) : 4 ≤ s.length := by
  induction s with
  | nil => simp [hasSepB] at h
  | cons c rest ih =>
    simp only [hasSepB, Bool.or_eq_true] at h
    rcases h with h | h
    · obtain ⟨v, hv⟩ := isPrefixOf_exists h
      rw [hv]
      simp [sepBy]
    · have := ih h
      simp only [List.length_cons]
      omega

theorem hasSepB_append_right : ∀ (z y : Str), hasSepB y = true →
    hasSepB (z ++ y) = true := by
  intro z
  induction z with
  | nil => intro y h; simpa using h
  | cons c z' ih =>
    intro y h
    show hasSepB (c :: (z' ++ y)) = true
    rw [hasSepB]
    rw [ih y h]
    simp

theorem hasSepB_append_sep (x t : Str) : hasSepB (x ++ sepBy ++ t) = true := by
  rw [List.append_assoc]
  refine hasSepB_append_right x (sepBy ++ t) ?_
  show hasSepB (' ' :: ('b' :: 'y' :: ' ' :: t)) = true
  rw [hasSepB,
    (show sepBy.isPrefixOf (' ' :: 'b' :: 'y' :: ' ' :: t) = true from
      isPrefixOf_append sepBy t)]
  simp

/-- A string containing `" by "` splits into at least two parts. -/
theorem splitOnL_length_ge2 : ∀ {s : Str}, hasSepB s = true →
    2 ≤ (splitOnL s).length := by
  intro s
  induction s with
  | nil => intro h; simp [hasSepB] at h
  | cons c rest ih =>
    intro h
    rw [splitOnL_cons]
    by_cases hp : sepBy.isPrefixOf (c :: rest) = true
    · rw [if_pos hp]
      have := List.length_pos.mpr (splitOnL_ne_nil ((c :: rest).drop 4))
      simp only [List.length_cons]
      omega
    · rw [if_neg hp]
      simp only [hasSepB, Bool.or_eq_true] at h
      rcases h with h | h
      · exact absurd h hp
      · rw [consHead_length_of_ne_nil c (splitOnL_ne_nil rest)]
        exact ih h

/-- If the artist part contains `" by "`, the whole key splits into at least
three parts. -/
theorem splitOnL_ge3_of_sep_in_right :
    ∀ (x y : Str), hasSepB y = true →
      3 ≤ (splitOnL (x ++ sepBy ++ y)).length := by
  intro x
  induction x with
  | nil =>
    intro y h
    show 3 ≤ (splitOnL (' ' :: ('b' :: 'y' :: ' ' :: y))).length
    rw [splitOnL_cons,
      if_pos (show sepBy.isPrefixOf (' ' :: 'b' :: 'y' :: ' ' :: y) = true from
        isPrefixOf_append sepBy y)]
    have h2 : 2 ≤ (splitOnL ((' ' :: 'b' :: 'y' :: ' ' :: y).drop 4)).length :=
      splitOnL_length_ge2 h
    simp only [List.length_cons]
    omega
  | cons c x' ih =>
    intro y h
    show 3 ≤ (splitOnL (c :: (x' ++ sepBy ++ y))).length
    rw [splitOnL_cons]
    by_cases hp : sepBy.isPrefixOf (c :: (x' ++ sepBy ++ y)) = true
    · rw [if_pos hp]
      have hdrop : (c :: (x' ++ sepBy ++ y)).drop 4 =
          ((c :: x') ++ sepBy).drop 4 ++ y := by
        rw [show c :: (x' ++ sepBy ++ y) = ((c :: x') ++ sepBy) ++ y from by
          simp [List.append_assoc]]
        exact List.drop_append_of_le_length (by simp [sepBy])
      rw [hdrop]
      have h2 : 2 ≤ (splitOnL (((c :: x') ++ sepBy).drop 4 ++ y)).length :=
        splitOnL_length_ge2 (hasSepB_append_right _ y h)
      simp only [List.length_cons]
      omega
    · rw [if_neg hp]
      rw [consHead_length_of_ne_nil c (splitOnL_ne_nil _)]
      exact ih y h

/-- If the title part contains `" by "`, the whole key splits into at least
three parts. -/
theorem splitOnL_ge3_of_sep_in_left :
    ∀ (s t : Str), hasSepB s = true →
      3 ≤ (splitOnL (s ++ sepBy ++ t)).length := by
  intro s
  induction s with
  | nil => intro t h; simp [hasSepB] at h
  | cons c rest ih =>
    intro t h
    show 3 ≤ (splitOnL (c :: (rest ++ sepBy ++ t))).length
    rw [splitOnL_cons]
    by_cases hp : sepBy.isPrefixOf (c :: (rest ++ sepBy ++ t)) = true
    · rw [if_pos hp]
      have hlen : 4 ≤ (c :: rest).length := hasSepB_length h
      have hdrop : (c :: (rest ++ sepBy ++ t)).drop 4 =
          (((c :: rest).drop 4 ++ sepBy) ++ t) := by
        rw [show c :: (rest ++ sepBy ++ t) = ((c :: rest) ++ sepBy) ++ t from by
          simp [List.append_assoc]]
        rw [List.drop_append_of_le_length (by simp [sepBy])]
        rw [List.drop_append_of_le_length hlen]
      rw [hdrop]
      have h2 : 2 ≤ (splitOnL (((c :: rest).drop 4 ++ sepBy) ++ t)).length :=
        splitOnL_length_ge2 (hasSepB_append_sep _ t)
      simp only [List.length_cons]
      omega
    · rw [if_neg hp]
      simp only [hasSepB, Bool.or_eq_true] at h
      rcases h with h | h
      · exact absurd (isPrefixOf_extend h) (by simpa using hp)
      · rw [consHead_length_of_ne_nil c (splitOnL_ne_nil _)]
        exact ih t h

/-- `" by "` inside a candidate's lowercased title or artist makes its key
split into a number of parts other than two. -/
theorem recKey_bad_split_of_sep_inside (r : Recommendation)
    (h : hasSepB (lower r.title) = true ∨ hasSepB (lower r.artist) = true) :
    (splitOnL (recKey r)).length ≠ 2 := by
  unfold recKey
  rcases h with h | h
  · have := splitOnL_ge3_of_sep_in_left (lower r.title) (lower r.artist) h
    omega
  · have := splitOnL_ge3_of_sep_in_right (lower r.title) (lower r.artist) h
    omega

/-! ## Claim theorems -/

/-- C5: a candidate is excluded from counting if and only if its lowercased
`"{title} by {artist}"` key is exactly equal to the lowercased
`"{name} by {artist}"` key of some playlist track: the counter value of a key
is `0` whenever the key equals some playlist-track key, and otherwise it is
the full number of candidates carrying that key — so a candidate whose key
merely resembles a playlist key (case-insensitive near-match) without being
equal to it is counted normally, fuzzy exclusion being no part of this
function. -/
theorem claim_C5 (tracks : List Track) (recs : List Recommendation) (k : Str) :
    lookupCount (countRecs tracks recs) k =
      if ∃ t ∈ tracks, trackKey t = k then 0
      else (recs.map recKey).count k := by
  unfold countRecs
  rw [lookupCount_foldl]
  have hiff : (k ∈ plKeys tracks) ↔ ∃ t ∈ tracks, trackKey t = k := by
    simp [plKeys, List.mem_map]
  simp only [lookupCount, Nat.zero_add]
  exact if_congr hiff rfl rfl

/-- C6: if every candidate's normalized key equals the normalized key of some
playlist track, nothing is ever counted and the function returns the empty
list. -/
theorem claim_C6 (tracks : List Track) (recs : List Recommendation)
    (h : ∀ r ∈ recs, recKey r ∈ plKeys tracks) :
    filter_and_get_top_recommendations tracks recs = .ok [] := by
  unfold filter_and_get_top_recommendations topPairs countRecs
  rw [foldl_countStep_all_excluded (plKeys tracks) recs [] h]
  rfl

def wTrack : Track :=
  { name := "Song".toList, artist := "Artist".toList, id := "t1".toList }

def wRec : Recommendation :=
  { title := "Song".toList, artist := "Artist".toList,
    album := "Alb".toList, thumbnail := none,
    views := "7".toList, spotify_url := "u".toList }

theorem claim_C6_witness :
    (∀ r ∈ [wRec], recKey r ∈ plKeys [wTrack]) ∧
      filter_and_get_top_recommendations [wTrack] [wRec] = .ok [] :=
  ⟨by decide, claim_C6 [wTrack] [wRec] (by decide)⟩

/-- C3: on a normal return, the output has at most 10 records and at most one
record per distinct non-excluded candidate key. -/
theorem claim_C3 (tracks : List Track) (recs : List Recommendation)
    (out : List Recommendation)
    (h : filter_and_get_top_recommendations tracks recs = .ok out) :
    out.length ≤ 10 ∧
      out.length ≤ ((nonExcludedKeys tracks recs).dedup).length := by
  unfold filter_and_get_top_recommendations at h
  have hsub := buildFinal_keys_sublist recs h
  have hlen : out.length ≤ (topPairs tracks recs).length := by
    have := hsub.length_le
    simpa using this
  constructor
  · refine hlen.trans ?_
    unfold topPairs
    have := List.length_take 10 (sortDesc (countRecs tracks recs))
    omega
  · refine hlen.trans ?_
    have h1 : (topPairs tracks recs).length ≤
        (sortDesc (countRecs tracks recs)).length :=
      (List.take_sublist _ _).length_le
    have h2 : (sortDesc (countRecs tracks recs)).length =
        (countRecs tracks recs).length :=
      (sortDesc_perm _).length_eq
    have h3 : (countRecs tracks recs).length ≤
        ((nonExcludedKeys tracks recs).dedup).length := by
      have hnd := countRecs_keys_nodup tracks recs
      have hsubset : (countRecs tracks recs).map Prod.fst ⊆
          (nonExcludedKeys tracks recs).dedup := by
        intro k hk
        rw [List.mem_dedup]
        have hm := (mem_countRecs_fst tracks recs k).mp hk
        unfold nonExcludedKeys
        rw [List.mem_filter]
        exact ⟨hm.1, by simp [hm.2]⟩
      have := (hnd.subperm hsubset).length_le
      simpa using this
    omega

theorem claim_C3_witness :
    filter_and_get_top_recommendations [] [wRec] = .ok [wRec] ∧
      (1 ≤ 10 ∧ 1 ≤ ((nonExcludedKeys [] [wRec]).dedup).length) := by
  refine ⟨rfl, ?_⟩
  have := claim_C3 [] [wRec] [wRec] rfl
  simpa using this

def exA : Recommendation :=
  { title := "Alpha".toList, artist := "X".toList, album := "aa".toList,
    thumbnail := none, views := "1".toList, spotify_url := "ua".toList }

def exB : Recommendation :=
  { title := "Beta".toList, artist := "Y".toList, album := "bb".toList,
    thumbnail := none, views := "2".toList, spotify_url := "ub".toList }

def exC : Recommendation :=
  { title := "Gamma".toList, artist := "Z".toList, album := "cc".toList,
    thumbnail := none, views := "3".toList, spotify_url := "uc".toList }

/-- Candidates whose keys A, B, C occur 3, 5 and 1 times. -/
def c4List : List Recommendation :=
  [exA, exA, exA, exB, exB, exB, exB, exB, exC]

/-- C4: the output is ordered by non-increasing occurrence count of each
record's normalized key among the non-excluded candidates; and on the
concrete example with counts `{A: 3, B: 5, C: 1}` the output order is
`[B, A, C]`. -/
theorem claim_C4 :
    (∀ (tracks : List Track) (recs out : List Recommendation),
      filter_and_get_top_recommendations tracks recs = .ok out →
      (out.map (fun r => occCount tracks recs (recKey r))).Pairwise
        (fun a b => b ≤ a)) ∧
      filter_and_get_top_recommendations [] c4List = .ok [exB, exA, exC] := by
  constructor
  · intro tracks recs out h
    unfold filter_and_get_top_recommendations at h
    have hsub := buildFinal_keys_sublist recs h
    have hp1 : (topPairs tracks recs).Pairwise (fun a b => b.2 ≤ a.2) :=
      List.Pairwise.sublist (List.take_sublist _ _)
        (sortDesc_pairwise (countRecs tracks recs))
    have hp2 : (topPairs tracks recs).Pairwise
        (fun a b => occCount tracks recs b.1 ≤ occCount tracks recs a.1) := by
      refine List.Pairwise.imp_of_mem ?_ hp1
      intro a b ha hb hle
      rw [← countRecs_entry tracks recs (mem_topPairs ha),
        ← countRecs_entry tracks recs (mem_topPairs hb)]
      exact hle
    have hp3 : ((topPairs tracks recs).map Prod.fst).Pairwise
        (fun k1 k2 => occCount tracks recs k2 ≤ occCount tracks recs k1) :=
      List.pairwise_map.mpr hp2
    have hp4 := List.Pairwise.sublist hsub hp3
    rw [List.pairwise_map]
    exact List.pairwise_map.mp hp4
  · rfl

theorem claim_C4_witness :
    filter_and_get_top_recommendations [] c4List = .ok [exB, exA, exC] ∧
      (([exB, exA, exC].map
        (fun r => occCount [] c4List (recKey r))).Pairwise
        (fun a b => b ≤ a)) :=
  ⟨claim_C4.2, claim_C4.1 [] c4List [exB, exA, exC] claim_C4.2⟩

/-- C2: whenever some retained key splits on `" by "` into a number of parts
other than two, the tuple unpacking of line 110 raises a `ValueError` — the
function is not total over candidate lists; and a key whose candidate has
`" by "` inside its lowercased title or artist always splits into a number of
parts other than two, so such a retained key always raises. -/
theorem claim_C2 :
    (∀ (tracks : List Track) (recs : List Recommendation),
      (∃ kc ∈ topPairs tracks recs, (splitOnL kc.1).length ≠ 2) →
      ∃ e, filter_and_get_top_recommendations tracks recs = .error e) ∧
    (∀ r : Recommendation,
      hasSepB (lower r.title) = true ∨ hasSepB (lower r.artist) = true →
      (splitOnL (recKey r)).length ≠ 2) :=
  ⟨fun _ recs h => buildFinal_error_of_bad_key recs h,
    recKey_bad_split_of_sep_inside⟩

def c2Rec : Recommendation :=
  { title := "a by b".toList, artist := "c".toList, album := "al".toList,
    thumbnail := none, views := "0".toList, spotify_url := "u".toList }

theorem claim_C2_witness :
    (∃ kc ∈ topPairs [] [c2Rec], (splitOnL kc.1).length ≠ 2) ∧
      (∃ e, filter_and_get_top_recommendations [] [c2Rec] = .error e) ∧
      (splitOnL (recKey c2Rec)).length ≠ 2 :=
  ⟨by decide, claim_C2.1 [] [c2Rec] (by decide),
    claim_C2.2 c2Rec (Or.inl (by decide))⟩

/-- A candidate whose title `"A by"` makes the key `"a by by b"`: the key
still splits into exactly two parts (`"a"` and `"by b"`), but those parts are
not the candidate's own title/artist components. -/
def c1Rec : Recommendation :=
  { title := "A by".toList, artist := "B".toList, album := "al".toList,
    thumbnail := none, views := "0".toList, spotify_url := "u".toList }

/-- C1 (counterexample): for the single candidate `c1Rec` (with empty
playlist), its key is retained with count 1 and `c1Rec` is the first — and
only — candidate whose lowercased title and artist match (rebuild) that key;
yet the function returns the empty list instead of returning `c1Rec` as that
key's output record, because the linear search uses the key's split parts,
which differ from the candidate's own components. -/
theorem claim_C1_counterexample :
    topPairs [] [c1Rec] = [(recKey c1Rec, 1)] ∧
      List.find? (fun r => recKey r == recKey c1Rec) [c1Rec] = some c1Rec ∧
      filter_and_get_top_recommendations [] [c1Rec] = .ok [] :=
  ⟨rfl, rfl, rfl⟩

/-- C1 (amended): provided no candidate's lowercased title followed by a
space, and no candidate's lowercased artist, contains `" by "`, the function
returns normally with exactly one record per retained key, in order, and each
record is the first candidate in the candidate list whose key equals the
retained key (all later candidates sharing the key — with their distinct
thumbnails or view counts — are discarded). -/
theorem claim_C1_amended (tracks : List Track) (recs : List Recommendation)
    (hclean : ∀ r ∈ recs, hasSepB (lower r.title ++ [' ']) = false ∧
      hasSepB (lower r.artist) = false) :
    ∃ out, filter_and_get_top_recommendations tracks recs = .ok out ∧
      List.Forall₂
        (fun r kc => recs.find? (fun r' => recKey r' == kc.1) = some r)
        out (topPairs tracks recs) := by
  have hkeys : ∀ kc ∈ topPairs tracks recs, ∃ r ∈ recs, kc.1 = recKey r := by
    intro kc hkc
    have hm := mem_topPairs hkc
    have hfst : kc.1 ∈ (countRecs tracks recs).map Prod.fst :=
      List.mem_map.mpr ⟨kc, hm, rfl⟩
    have h2 := (mem_countRecs_fst tracks recs kc.1).mp hfst
    obtain ⟨r, hr, hkey⟩ := List.mem_map.mp h2.1
    exact ⟨r, hr, hkey.symm⟩
  exact buildFinal_ok_of_clean recs hclean hkeys

def c1CleanRec : Recommendation :=
  { title := "Tune One".toList, artist := "Band Z".toList,
    album := "al".toList, thumbnail := none, views := "4".toList,
    spotify_url := "u".toList }

theorem claim_C1_witness :
    (∀ r ∈ [c1CleanRec, c1CleanRec],
      hasSepB (lower r.title ++ [' ']) = false ∧
        hasSepB (lower r.artist) = false) ∧
      ∃ out,
        filter_and_get_top_recommendations [] [c1CleanRec, c1CleanRec] =
          .ok out ∧
        List.Forall₂
          (fun r kc =>
            List.find? (fun r' => recKey r' == kc.1) [c1CleanRec, c1CleanRec] =
              some r)
          out (topPairs [] [c1CleanRec, c1CleanRec]) :=
  ⟨by decide, claim_C1_amended [] [c1CleanRec, c1CleanRec] (by decide)⟩

/-- C7: among output records whose keys have equal occurrence counts among
the non-excluded candidates, the output order is the order of the keys' first
occurrences in the candidate list (the sort is stable and the counter
preserves insertion order). -/
theorem claim_C7 (tracks : List Track) (recs out : List Recommendation)
    (h : filter_and_get_top_recommendations tracks recs = .ok out) :
    (out.map recKey).Pairwise
      (fun k1 k2 => occCount tracks recs k1 = occCount tracks recs k2 →
        occursBefore (recs.map recKey) k1 k2) := by
  unfold filter_and_get_top_recommendations at h
  have hsub := buildFinal_keys_sublist recs h
  have h0 : (countRecs tracks recs).Pairwise
      (fun a b => occursBefore (recs.map recKey) a.1 b.1) :=
    List.pairwise_map.mp (countRecs_keys_pairwise tracks recs)
  have h1 := sortDesc_pairwise_of_stable h0
  have h2 : (topPairs tracks recs).Pairwise
      (fun a b => a.2 = b.2 → occursBefore (recs.map recKey) a.1 b.1) :=
    List.Pairwise.sublist (List.take_sublist _ _) h1
  have h3 : (topPairs tracks recs).Pairwise
      (fun a b => occCount tracks recs a.1 = occCount tracks recs b.1 →
        occursBefore (recs.map recKey) a.1 b.1) := by
    refine List.Pairwise.imp_of_mem ?_ h2
    intro a b ha hb hab hocc
    apply hab
    rw [countRecs_entry tracks recs (mem_topPairs ha),
      countRecs_entry tracks recs (mem_topPairs hb)]
    exact hocc
  exact List.Pairwise.sublist hsub (List.pairwise_map.mpr h3)

/-- Two keys tied at two occurrences each, interleaved. -/
def c7List : List Recommendation := [exA, exB, exA, exB]

theorem claim_C7_witness :
    filter_and_get_top_recommendations [] c7List = .ok [exA, exB] ∧
      (([exA, exB].map recKey).Pairwise
        (fun k1 k2 => occCount [] c7List k1 = occCount [] c7List k2 →
          occursBefore (c7List.map recKey) k1 k2)) :=
  ⟨rfl, claim_C7 [] c7List [exA, exB] rfl⟩

/-- C8: on a normal return the output is deduplicated — the normalized keys
of the returned records are pairwise distinct — and those keys, in order,
form a subsequence of the retained keys (each record's key equals the
retained key it was recovered for). -/
theorem claim_C8 (tracks : List Track) (recs out : List Recommendation)
    (h : filter_and_get_top_recommendations tracks recs = .ok out) :
    (out.map recKey).Nodup ∧
      (out.map recKey).Sublist ((topPairs tracks recs).map Prod.fst) := by
  unfold filter_and_get_top_recommendations at h
  have hsub := buildFinal_keys_sublist recs h
  refine ⟨?_, hsub⟩
  have h0 := countRecs_keys_nodup tracks recs
  have h1 : ((sortDesc (countRecs tracks recs)).map Prod.fst).Nodup :=
    (((sortDesc_perm (countRecs tracks recs)).map Prod.fst).symm).nodup h0
  have h2 : ((topPairs tracks recs).map Prod.fst).Nodup :=
    List.Nodup.sublist (List.Sublist.map _ (List.take_sublist _ _)) h1
  exact List.Nodup.sublist hsub h2

theorem claim_C8_witness :
    filter_and_get_top_recommendations [] c4List = .ok [exB, exA, exC] ∧
      (([exB, exA, exC].map recKey).Nodup ∧
        ([exB, exA, exC].map recKey).Sublist
          ((topPairs [] c4List).map Prod.fst)) :=
  ⟨rfl, claim_C8 [] c4List [exB, exA, exC] rfl⟩

/-! ## Lemmas about the per-track search loop -/

/-- The loop appends at most one record per processed result. -/
theorem ytProcess_length (ratio : Str → Str → Nat)
    (songName artistName trackId : Str) :
    ∀ {l : List SearchResult} {out : List Recommendation},
      ytProcess ratio songName artistName trackId l = .ok out →
      out.length ≤ l.length := by
  intro l
  induction l with
  | nil =>
    intro out h
    simp only [ytProcess, Except.ok.injEq] at h
    subst h
    simp
  | cons res rest ih =>
    intro out h
    rw [ytProcess] at h
    split at h
    · simp at h
    · split at h
      · exact (ih h).trans (by simp)
      · split at h
        · simp at h
        · split at h
          · rename_i out' hrest
            simp only [Except.ok.injEq] at h
            subst h
            simp only [List.length_cons]
            exact Nat.succ_le_succ (ih hrest)
          · simp at h

/-- Every returned record comes from a result that did not fuzzy-match the
queried song on both title and artist at ratio above 90. -/
theorem ytProcess_skips (ratio : Str → Str → Nat)
    (songName artistName trackId : Str) :
    ∀ {l : List SearchResult} {out : List Recommendation},
      ytProcess ratio songName artistName trackId l = .ok out →
      ∀ r ∈ out,
        ¬(ratio (lower r.title) (lower songName) > 90 ∧
          ratio (lower r.artist) (lower artistName) > 90) := by
  intro l
  induction l with
  | nil =>
    intro out h
    simp only [ytProcess, Except.ok.injEq] at h
    subst h
    simp
  | cons res rest ih =>
    intro out h
    rw [ytProcess] at h
    split at h
    · simp at h
    · rename_i artist hart
      split at h
      · exact ih h
      · rename_i hcond
        split at h
        · simp at h
        · split at h
          · rename_i out' hrest
            simp only [Except.ok.injEq] at h
            subst h
            intro r hr
            rcases List.mem_cons.mp hr with rfl | hr
            · simpa using hcond
            · exact ih hrest r hr
          · simp at h

/-- C9: the function inspects only the first 10 search results (it is
unchanged by truncating its input to 10 results), returns at most 10 records
per track, and skips every result whose title and artist both fuzzy-match
the queried song at ratio above 90. -/
theorem claim_C9 (ratio : Str → Str → Nat)
    (songName artistName trackId : Str)
    (searchResults : List SearchResult) :
    get_youtube_music_recommendations ratio songName artistName trackId
        searchResults =
      get_youtube_music_recommendations ratio songName artistName trackId
        (searchResults.take 10) ∧
    ∀ out,
      get_youtube_music_recommendations ratio songName artistName trackId
          searchResults = .ok out →
      out.length ≤ 10 ∧
        ∀ r ∈ out,
          ¬(ratio (lower r.title) (lower songName) > 90 ∧
            ratio (lower r.artist) (lower artistName) > 90) := by
  constructor
  · unfold get_youtube_music_recommendations
    rw [List.take_take]
    norm_num
  · intro out h
    unfold get_youtube_music_recommendations at h
    refine ⟨?_, ytProcess_skips ratio songName artistName trackId h⟩
    have h1 := ytProcess_length ratio songName artistName trackId h
    have h2 := List.length_take 10 searchResults
    omega

def wRatio : Str → Str → Nat := fun x y => if x == y then 100 else 0

def ytRes1 : SearchResult :=
  { title := "Song".toList, artists := some [⟨some ("Artist".toList)⟩],
    album := none, thumbnails := none, views := none }

def ytRes2 : SearchResult :=
  { title := "Other".toList, artists := none, album := none,
    thumbnails := none, views := none }

def wOutRec : Recommendation :=
  { title := "Other".toList, artist := unknownArtist,
    album := "N/A".toList, thumbnail := none, views := "0".toList,
    spotify_url := spotifyUrlOf ("t1".toList) }

theorem claim_C9_witness :
    get_youtube_music_recommendations wRatio ("Song".toList)
        ("Artist".toList) ("t1".toList) [ytRes1, ytRes2] = .ok [wOutRec] ∧
      ([wOutRec].length ≤ 10 ∧
        ∀ r ∈ [wOutRec],
          ¬(wRatio (lower r.title) (lower ("Song".toList)) > 90 ∧
            wRatio (lower r.artist) (lower ("Artist".toList)) > 90)) :=
  ⟨rfl,
    (claim_C9 wRatio ("Song".toList) ("Artist".toList) ("t1".toList)
      [ytRes1, ytRes2]).2 [wOutRec] rfl⟩

/-- C10: `get_spotify_tracks` raises a `KeyError` whenever some non-null
track item lacks an `'id'` field; null track items are skipped; and a track
with an `'id'` is returned with the defaults `"Unknown Song"`/`"Unknown
Artist"` substituted for an absent name or artist. -/
theorem claim_C10 :
    (∀ (items : List (Option SpTrackObj)) (t : SpTrackObj),
      some t ∈ items → t.id = none →
        ∃ e, get_spotify_tracks items = .error e) ∧
    (∀ items, get_spotify_tracks (none :: items) = get_spotify_tracks items) ∧
    (∀ (t : SpTrackObj) (i : Str), t.id = some i →
      get_spotify_tracks [some t] =
        .ok [{ name := t.name.getD unknownSong,
               artist := spArtistName t.artists, id := i }]) := by
  refine ⟨?_, ?_, ?_⟩
  · intro items
    induction items with
    | nil => intro t h _; simp at h
    | cons item rest ih =>
      intro t hmem hid
      rcases List.mem_cons.mp hmem with heq | hmem'
      · subst heq
        refine ⟨"KeyError", ?_⟩
        rw [get_spotify_tracks, hid]
      · cases item with
        | none =>
          obtain ⟨e, he⟩ := ih t hmem' hid
          exact ⟨e, by rw [get_spotify_tracks, he]⟩
        | some t' =>
          cases hid' : t'.id with
          | none => exact ⟨"KeyError", by rw [get_spotify_tracks, hid']⟩
          | some i' =>
            obtain ⟨e, he⟩ := ih t hmem' hid
            exact ⟨e, by rw [get_spotify_tracks, hid', he]⟩
  · intro items; rfl
  · intro t i hid
    rw [get_spotify_tracks, hid]
    rfl

def wItemNoId : SpTrackObj :=
  { name := some ("N1".toList), artists := none, id := none }

theorem claim_C10_witness :
    (some wItemNoId ∈ [some wItemNoId] ∧ wItemNoId.id = none) ∧
      ∃ e, get_spotify_tracks [some wItemNoId] = .error e :=
  ⟨⟨by decide, rfl⟩,
    claim_C10.1 [some wItemNoId] wItemNoId (by decide) rfl⟩
